import Mathlib

/-!
# Stream VByte codec: a shallow embedding of `stream-vbyte-rust`

This file embeds the core of the `stream-vbyte-rust` repository in Lean 4:

* `encode_num_scalar` / `decode_num_scalar` (`src/encode/mod.rs`,
  `src/decode/mod.rs`): one-number variable-length encode/decode;
* `Scalar::encode_quads` / `Scalar::decode_quads` (`src/scalar.rs`);
* the `encode` driver (`src/encode/mod.rs`) instantiated with the scalar
  backend and with the NEON backend;
* `NeonEncoder::encode_quads` (`src/encode/neon.rs`) and
  `NeonDecoder::decode_quads` (`src/decode/neon.rs`);
* the decode driver `decode` (`src/decode/mod.rs`), whose `DecodeCursor`
  lives in a `cursor` module that is not part of the published sources and
  is therefore modelled from the specification.

Machine integers are modelled as `Nat` with explicit truncation where the
source relies on fixed widths; byte buffers are modelled as `List Nat`
(each element a byte value), with in-place writes of the source turned
into produced byte lists (output buffers in all the statements below are
"sufficiently large", which the source's contracts require anyway).
Fallible slice indexing (which panics in Rust) is modelled with `Option`.
-/

namespace StreamVByte

/-- Bit length of a natural number, structurally bounded by a fuel
argument; `bitLenAux 32 v` is the bit length of a `u32` value `v`. -/
def bitLenAux : Nat → Nat → Nat
  | 0, _ => 0
  | fuel + 1, v => if v = 0 then 0 else bitLenAux fuel (v / 2) + 1

/-- `u32::leading_zeros` from Rust: 32 minus the bit length. -/
def u32_leading_zeros (v : Nat) : Nat := 32 - bitLenAux 32 v

/-- The little-endian 4-byte representation of a `u32`
(`u32::to_le_bytes`). -/
def u32_to_le_bytes (v : Nat) : List Nat :=
  [v % 256, v / 256 % 256, v / 65536 % 256, v / 16777216 % 256]

/-- `u32::from_le_bytes` on a 4-byte little-endian list. -/
def u32_from_le_bytes (bs : List Nat) : Nat :=
  bs.foldr (fun b acc => b + 256 * acc) 0

/-- `encode_num_scalar` from `src/encode/mod.rs` lines 100–107: the byte
length is `max(1, 4 - leading_zeros/8)` and the low `len` little-endian
bytes are written to the output buffer (modelled as the returned list). -/
def encode_num_scalar (num : Nat) : Nat × List Nat :=
  let len := max 1 (4 - u32_leading_zeros num / 8)
  (len, (u32_to_le_bytes num).take len)

/-- The encoded byte length of one number (first component of
`encode_num_scalar`). -/
def encodedLen (num : Nat) : Nat := (encode_num_scalar num).1

/-- The value bytes of one number (second component of
`encode_num_scalar`). -/
def encodedBytes (num : Nat) : List Nat := (encode_num_scalar num).2

/-- `decode_num_scalar` from `src/decode/mod.rs` lines 142–147: copy the
first `len` input bytes into a zeroed 4-byte buffer and read it as a
little-endian `u32`.  The source's slice expressions
`buf[0..len].copy_from_slice(&input[0..len])` panic when `len` exceeds
either length, modelled by `none`. -/
def decode_num_scalar (len : Nat) (input : List Nat) : Option Nat :=
  if len ≤ 4 ∧ len ≤ input.length then
    some (u32_from_le_bytes (input.take len ++ List.replicate (4 - len) 0))
  else none

/-- Modelled from the spec: the `tables` module (`src/tables.rs`) is not
among the published sources.  `DECODE_LENGTH_PER_NUM_TABLE[c]` is, per
spec §4.1, the 4-tuple `(l0, l1, l2, l3)`, each in `[1, 4]`, extracted
from the four 2-bit lanes of the control byte, lane 0 in the two
least-significant bits (spec §3). -/
def decode_length_per_num (c : Nat) : Nat × Nat × Nat × Nat :=
  (c % 4 + 1, c / 4 % 4 + 1, c / 16 % 4 + 1, c / 64 % 4 + 1)

/-- Modelled from the spec: the `tables` module (`src/tables.rs`) is not
among the published sources.  `DECODE_LENGTH_PER_QUAD_TABLE[c]` is, per
spec §3 invariant 3, `4 + ((c & 3) + ((c>>2) & 3) + ((c>>4) & 3) +
((c>>6) & 3))`, the total number of value bytes of a quad. -/
def decode_length_per_quad (c : Nat) : Nat :=
  4 + (c % 4 + c / 4 % 4 + c / 16 % 4 + c / 64 % 4)

/-- `Scalar::encode_quads` from `src/scalar.rs` lines 13–46, recursing on
the control-byte count: each control byte consumes four input numbers,
appends their `encode_num_scalar` bytes at the running offset, and packs
the four 2-bit length codes.  The source's `input[nums_encoded + i]`
indexing panics when the input holds fewer than four numbers per control
byte, modelled by `none`.  Returns (control bytes written, value bytes
written, `nums_encoded`, `bytes_written`). -/
def scalar_encode_quads : List Nat → Nat → Option (List Nat × List Nat × Nat × Nat)
  | _, 0 => some ([], [], 0, 0)
  | v0 :: v1 :: v2 :: v3 :: rest, n + 1 =>
    let len0 := encodedLen v0
    let len1 := encodedLen v1
    let len2 := encodedLen v2
    let len3 := encodedLen v3
    match scalar_encode_quads rest n with
    | some (cbs, vbs, ne, bw) =>
      some (((len0 - 1) ||| ((len1 - 1) <<< 2) ||| ((len2 - 1) <<< 4) |||
              ((len3 - 1) <<< 6)) :: cbs,
            encodedBytes v0 ++ encodedBytes v1 ++ encodedBytes v2 ++ encodedBytes v3 ++ vbs,
            ne + 4, len0 + len1 + len2 + len3 + bw)
    | none => none
  | _, _ + 1 => none

/-- The loop body of `Scalar::decode_quads` (`src/scalar.rs` lines 54–95)
over a prefix of the control bytes: for each control byte, look up the
four lane lengths, decode each lane with `decode_num_scalar` at the
running offset (slicing modelled by `List.drop`), report the four
`sink.on_number` calls as `(value, index)` pairs, and advance the offset
by the quad's total length.  Returns (emissions, bytes read). -/
def scalar_decode_go : List Nat → List Nat → Nat → Option (List (Nat × Nat) × Nat)
  | [], _, _ => some ([], 0)
  | c :: cs, bytes, numsDecoded =>
    match decode_length_per_num c with
    | (len0, len1, len2, len3) =>
      match decode_num_scalar len0 bytes,
            decode_num_scalar len1 (bytes.drop len0),
            decode_num_scalar len2 (bytes.drop (len0 + len1)),
            decode_num_scalar len3 (bytes.drop (len0 + len1 + len2)) with
      | some n0, some n1, some n2, some n3 =>
        match scalar_decode_go cs (bytes.drop (len0 + len1 + len2 + len3))
            (numsDecoded + 4) with
        | some (es, br) =>
          some ((n0, numsDecoded) :: (n1, numsDecoded + 1) :: (n2, numsDecoded + 2) ::
                (n3, numsDecoded + 3) :: es,
                len0 + len1 + len2 + len3 + br)
        | none => none
      | _, _, _, _ => none

/-- `Scalar::decode_quads` from `src/scalar.rs` lines 54–95: process the
first `min(control_bytes.len(), control_bytes_to_decode)` control bytes
and return `(nums_decoded - nums_already_decoded, bytes_read)` together
with the `sink.on_number` emissions. -/
def scalar_decode_quads (controlBytes encodedNums : List Nat)
    (controlBytesToDecode numsAlreadyDecoded : Nat) :
    Option (List (Nat × Nat) × Nat × Nat) :=
  let limit := min controlBytes.length controlBytesToDecode
  match scalar_decode_go (controlBytes.take limit) encodedNums numsAlreadyDecoded with
  | some (es, br) => some (es, 4 * limit, br)
  | none => none

/-- `encoded_shape` from `src/encode/mod.rs` (via `lib.rs`): control byte
count `⌈count/4⌉`, complete control byte count `⌊count/4⌋`, and leftover
count `count % 4`. -/
def encoded_shape (count : Nat) : Nat × Nat × Nat :=
  ((count + 3) / 4, count / 4, count % 4)

/-- The leftover loop of `encode` (`src/encode/mod.rs` lines 81–95):
scalar-encode each of the 1–3 trailing numbers, OR its 2-bit length code
into the final control byte at position `i*2`, and append its value
bytes.  `i` is the lane index of the first number in the list. -/
def encode_leftover_go : List Nat → Nat → Nat × List Nat
  | [], _ => (0, [])
  | v :: vs, i =>
    let len := encodedLen v
    let rest := encode_leftover_go vs (i + 1)
    (rest.1 ||| ((len - 1) <<< (i * 2)), encodedBytes v ++ rest.2)

/-- The `encode` driver from `src/encode/mod.rs` lines 48–97 instantiated
with the `Scalar` backend: split the output into a control region of
`⌈n/4⌉` bytes and a value region, encode all complete quads with
`Scalar::encode_quads` (the scalar finishing call then covers an empty
control range and writes nothing), then scalar-encode the leftover 1–3
numbers into the final control byte.  Returns the output bytes written
and the returned byte count `control_bytes.len() + num_bytes_written`. -/
def encode_scalar (input : List Nat) : Option (List Nat × Nat) :=
  if input.length = 0 then some ([], 0) else
  match encoded_shape input.length with
  | (controlBytesLen, completeControlBytesLen, leftoverNumbers) =>
    match scalar_encode_quads input completeControlBytesLen with
    | none => none
    | some (cbs, qbytes, _numsEncoded, bytesWritten) =>
      let lout := encode_leftover_go (input.drop (completeControlBytesLen * 4)) 0
      let ctrl := if leftoverNumbers > 0 then cbs ++ [lout.1] else cbs
      some (ctrl ++ qbytes ++ lout.2,
            controlBytesLen + (bytesWritten + lout.2.length))

/-- The NEON `vqtbl1q_u8` table-lookup intrinsic: each mask byte selects a
byte of `data`; indices out of range (≥ 16) produce 0. -/
def vqtbl1q_u8 (data mask : List Nat) : List Nat :=
  mask.map (fun m => if m < 16 then data.getD m 0 else 0)

/-- Modelled from the spec: the `tables` module (`src/tables.rs`) holding
`NEON_ENCODE_SHUFFLE_TABLE` is not among the published sources.  Per spec
§4.1, `ENCODE_SHUFFLE[c]` moves each value's retained low bytes down to
the contiguous output area; lanes corresponding to discarded bytes are
ignored (modelled with the 255 sentinel, which `vqtbl1q_u8` zero-fills —
the NEON encoder's own test expects those trailing bytes to be 0). -/
def neon_encode_shuffle (c : Nat) : List Nat :=
  match decode_length_per_num c with
  | (len0, len1, len2, len3) =>
    let picks := List.range len0 ++ (List.range len1).map (· + 4) ++
      (List.range len2).map (· + 8) ++ (List.range len3).map (· + 12)
    picks ++ List.replicate (16 - picks.length) 255

/-- `NeonEncoder::encode_quads` from `src/encode/neon.rs` lines 37–81.
The kernel loads only the first four input numbers (`vld1q_u32` reads 16
bytes; fewer than four numbers is an out-of-bounds read, modelled by
`none`), computes per-lane codes by saturating subtraction
`3 - clz/8` (`vqsubq_u32`; `Nat` subtraction saturates likewise), gathers
them into one `u32` and multiplies by the `CONCAT = 1|1<<10|1<<20|1<<30`
and `SUM = 1|1<<8|1<<16|1<<24` aggregators (wrapping `u32` multiply,
modelled with `% 2^32`), taking the top byte of each product.  It stores
16 shuffled bytes to the output, never writes `control_bytes` (the
parameter is kept to mirror the signature), leaves `nums_encoded` at 0,
and returns `(nums_encoded, length)`; the `control_byte_limit` computed
at the end of the source function is dead code.  Returns
`(nums_encoded, bytes_written, the 16 stored bytes)`. -/
def neon_encode_quads (input : List Nat) (controlBytes : List Nat) :
    Option (Nat × Nat × List Nat) :=
  match input, controlBytes with
  | v0 :: v1 :: v2 :: v3 :: _, _ =>
    let c0 := 3 - u32_leading_zeros v0 / 8
    let c1 := 3 - u32_leading_zeros v1 / 8
    let c2 := 3 - u32_leading_zeros v2 / 8
    let c3 := 3 - u32_leading_zeros v3 / 8
    let mulshift := c3 + 256 * c2 + 65536 * c1 + 16777216 * c0
    let code := mulshift * 1074791425 % 4294967296 / 16777216
    let length := 4 + mulshift * 16843009 % 4294967296 / 16777216
    let stored := vqtbl1q_u8
      (u32_to_le_bytes v0 ++ u32_to_le_bytes v1 ++ u32_to_le_bytes v2 ++ u32_to_le_bytes v3)
      (neon_encode_shuffle code)
    some (0, length, stored)
  | _, _ => none

/-- Modelled from the spec: the `tables` module (`src/tables.rs`) holding
`DECODE_SHUFFLE_TABLE` is not among the published sources.  Per spec
§4.1, lane `i` (bytes `4i..4i+4`) gives for each output position the
source byte index within the packed input: `0..length_i - 1` pick packed
bytes, a sentinel ≥ 16 zero-fills the remaining `4 - length_i` bytes. -/
def decode_shuffle (c : Nat) : List Nat :=
  match decode_length_per_num c with
  | (len0, len1, len2, len3) =>
    (List.range 4).map (fun k => if k < len0 then k else 255) ++
    (List.range 4).map (fun k => if k < len1 then len0 + k else 255) ++
    (List.range 4).map (fun k => if k < len2 then len0 + len1 + k else 255) ++
    (List.range 4).map (fun k => if k < len3 then len0 + len1 + len2 + k else 255)

/-- The loop body of `NeonDecoder::decode_quads` (`src/decode/neon.rs`
lines 40–60) over a prefix of the control bytes: slice 16 bytes of input
unconditionally (`&encoded_nums[bytes_read..(bytes_read + 16)]` panics
when fewer remain, modelled by `none`), shuffle them with the control
byte's mask, emit `sink.on_quad(quad, nums_decoded)`, and advance by
`DECODE_LENGTH_PER_QUAD_TABLE[control_byte]`.  Returns (quad emissions,
bytes read). -/
def neon_decode_go : List Nat → List Nat → Nat → Option (List (List Nat × Nat) × Nat)
  | [], _, _ => some ([], 0)
  | c :: cs, bytes, numsDecoded =>
    let length := decode_length_per_quad c
    if 16 ≤ bytes.length then
      let quad := vqtbl1q_u8 (bytes.take 16) (decode_shuffle c)
      match neon_decode_go cs (bytes.drop length) (numsDecoded + 4) with
      | some (es, br) => some ((quad, numsDecoded) :: es, length + br)
      | none => none
    else none

/-- `NeonDecoder::decode_quads` from `src/decode/neon.rs` lines 15–64:
process the first
`min(control_bytes_to_decode, control_bytes.len().saturating_sub(3))`
control bytes (`Nat` subtraction saturates likewise) and return
`(nums_decoded - nums_already_decoded, bytes_read)` together with the
`sink.on_quad` emissions. -/
def neon_decode_quads (controlBytes encodedNums : List Nat)
    (controlBytesToDecode numsAlreadyDecoded : Nat) :
    Option (List (List Nat × Nat) × Nat × Nat) :=
  let limit := min controlBytesToDecode (controlBytes.length - 3)
  match neon_decode_go (controlBytes.take limit) encodedNums numsAlreadyDecoded with
  | some (es, br) => some (es, 4 * limit, br)
  | none => none

/-- The per-lane lengths of a control byte as a list, lane 0 first
(the tuple of `decode_length_per_num` flattened). -/
def lanes_list (c : Nat) : List Nat :=
  [c % 4 + 1, c / 4 % 4 + 1, c / 16 % 4 + 1, c / 64 % 4 + 1]

/-- Modelled from the spec: the partial-final-quad phase of
`DecodeCursor::decode_slice` (§4.7; the `cursor` module is not among the
published sources).  For each of the 1–3 leftover lanes, read the lane's
length worth of bytes with the scalar number decoder at the running
offset and write the value at the next output index.  Returns (emissions,
bytes read). -/
def partial_decode_go : List Nat → List Nat → Nat → Option (List (Nat × Nat) × Nat)
  | [], _, _ => some ([], 0)
  | l :: ls, bytes, idx =>
    match decode_num_scalar l bytes with
    | some n =>
      match partial_decode_go ls (bytes.drop l) (idx + 1) with
      | some (es, br) => some ((n, idx) :: es, l + br)
      | none => none
    | none => none

/-- Modelled from the spec: `DecodeCursor::decode_slice` (§4.7)
instantiated with the `Scalar` decoder (the `cursor` module is not among
the published sources).  All complete quads are driven through the quad
kernel — with the scalar backend both the kernel phase and the scalar
tail are `Scalar::decode_quads`, which decodes every requested control
byte — and the trailing partial quad (1–3 numbers) is decoded from the
final control byte's low-to-high lanes.  Returns (emissions, value bytes
consumed). -/
def cursor_decode_slice (ctrl vals : List Nat) (count : Nat) :
    Option (List (Nat × Nat) × Nat) :=
  match encoded_shape count with
  | (_controlBytesLen, completeControlBytesLen, leftoverNumbers) =>
    match scalar_decode_quads ctrl vals completeControlBytesLen 0 with
    | some (es, _numsDecoded, bytesRead) =>
      if leftoverNumbers = 0 then some (es, bytesRead) else
      match partial_decode_go
          ((lanes_list (ctrl.getD completeControlBytesLen 0)).take leftoverNumbers)
          (vals.drop bytesRead) (completeControlBytesLen * 4) with
      | some (les, lbr) => some (es ++ les, bytesRead + lbr)
      | none => none
    | none => none

/-- `SliceDecodeSink` (`src/decode/mod.rs`): each `on_number(num, idx)`
emission writes `output[idx] = num`. -/
def write_emissions (out : List Nat) (es : List (Nat × Nat)) : List Nat :=
  es.foldl (fun o e => o.set e.2 e.1) out

/-- The `decode` driver from `src/decode/mod.rs` lines 125–139
instantiated with the `Scalar` decoder: build a cursor over the encoded
bytes (Modelled from the spec §4.7: `DecodeCursor::new` splits the
encoded range at `control_bytes_len = ⌈count/4⌉`), run `decode_slice`
into an output slice of `count` zeros, assert that exactly `count`
numbers were decoded, and return the output together with
`input_consumed() = control_bytes_len + value_offset`. -/
def decode_scalar (input : List Nat) (count : Nat) : Option (List Nat × Nat) :=
  match encoded_shape count with
  | (controlBytesLen, _, _) =>
    if controlBytesLen ≤ input.length then
      match cursor_decode_slice (input.take controlBytesLen)
          (input.drop controlBytesLen) count with
      | some (es, valueOffset) =>
        if es.length = count then
          some (write_emissions (List.replicate count 0) es,
                controlBytesLen + valueOffset)
        else none
      | none => none
    else none

/-- The `encode` driver from `src/encode/mod.rs` lines 48–97 instantiated
with the NEON backend: `NeonEncoder::encode_quads` stores 16 shuffled
bytes at value offset 0 and reports `(0, first quad's length)`, so
`control_bytes_written = 0` and the scalar finishing call re-encodes the
whole input starting at value offset `bytes_written` — the first
`bytes_written` stored bytes survive in the written region, followed by
the scalar encoding; the control region is written entirely by the
scalar call and the leftover loop.  Inputs of 1–3 numbers make the NEON
kernel read out of bounds (modelled by `none`). -/
def encode_neon (input : List Nat) : Option (List Nat × Nat) :=
  if input.length = 0 then some ([], 0) else
  match encoded_shape input.length with
  | (controlBytesLen, completeControlBytesLen, leftoverNumbers) =>
    match neon_encode_quads input (List.replicate completeControlBytesLen 0) with
    | none => none
    | some (numsEncoded, bytesWritten, stored) =>
      match scalar_encode_quads (input.drop numsEncoded) completeControlBytesLen with
      | none => none
      | some (cbs, qbytes, _ne2, bw2) =>
        let lout := encode_leftover_go (input.drop (completeControlBytesLen * 4)) 0
        let ctrl := if leftoverNumbers > 0 then cbs ++ [lout.1] else cbs
        some (ctrl ++ (stored.take bytesWritten ++ qbytes) ++ lout.2,
              controlBytesLen + (bytesWritten + bw2 + lout.2.length))

/-! ## Basic lemmas about the number-level codec -/

theorem bitLenAux_le (fuel : Nat) : ∀ k v, v < 2 ^ k → k ≤ fuel → bitLenAux fuel v ≤ k := by
  induction fuel with
  | zero => intro k v _ _; simp [bitLenAux]
  | succ fuel ih =>
    intro k v hv hk
    by_cases h0 : v = 0
    · simp [bitLenAux, h0]
    · match k with
      | 0 => omega
      | k + 1 =>
        simp only [bitLenAux, h0, if_false]
        have : v / 2 < 2 ^ k := by
          have := Nat.pow_succ 2 k ▸ hv
          omega
        exact Nat.succ_le_succ (ih k (v / 2) this (by omega))

theorem lt_bitLenAux (fuel : Nat) : ∀ k v, 2 ^ k ≤ v → k < fuel → k < bitLenAux fuel v := by
  induction fuel with
  | zero => intro k v _ h; omega
  | succ fuel ih =>
    intro k v hv hk
    have h0 : v ≠ 0 := by have := Nat.pos_pow_of_pos k (by norm_num : 0 < 2); omega
    match k with
    | 0 => simp [bitLenAux, h0]
    | k + 1 =>
      simp only [bitLenAux, h0, if_false]
      have : 2 ^ k ≤ v / 2 := by
        have := Nat.pow_succ 2 k ▸ hv
        omega
      exact Nat.succ_lt_succ (ih k (v / 2) this (by omega))

theorem bitLenAux_le_fuel (fuel : Nat) : ∀ v, bitLenAux fuel v ≤ fuel := by
  induction fuel with
  | zero => intro v; simp [bitLenAux]
  | succ fuel ih =>
    intro v
    by_cases h0 : v = 0
    · simp [bitLenAux, h0]
    · simp only [bitLenAux, h0, if_false]
      exact Nat.succ_le_succ (ih (v / 2))

theorem u32_leading_zeros_le (v : Nat) : u32_leading_zeros v ≤ 32 := by
  simp only [u32_leading_zeros]; omega

/-- The byte length computed by the source's
`max(1, 4 - num.leading_zeros()/8)` agrees with the four byte-range
cases. -/
theorem encodedLen_eq (v : Nat) :
    encodedLen v = if v < 256 then 1 else if v < 65536 then 2 else
      if v < 16777216 then 3 else 4 := by
  have hle := bitLenAux_le_fuel 32 v
  simp only [encodedLen, encode_num_scalar, u32_leading_zeros]
  by_cases h1 : v < 256
  · have := bitLenAux_le 32 8 v (by omega) (by omega)
    simp only [h1, if_true]
    omega
  · by_cases h2 : v < 65536
    · have ha := bitLenAux_le 32 16 v (by omega) (by omega)
      have hb := lt_bitLenAux 32 8 v (by omega) (by omega)
      simp only [h1, h2, if_false, if_true]
      omega
    · by_cases h3 : v < 16777216
      · have ha := bitLenAux_le 32 24 v (by omega) (by omega)
        have hb := lt_bitLenAux 32 16 v (by omega) (by omega)
        simp only [h1, h2, h3, if_false, if_true]
        omega
      · have hb := lt_bitLenAux 32 24 v (by omega) (by omega)
        simp only [h1, h2, h3, if_false]
        omega

theorem encodedLen_pos (v : Nat) : 1 ≤ encodedLen v := by
  rw [encodedLen_eq]; split <;> try split <;> try split
  all_goals omega

theorem encodedLen_le_four (v : Nat) : encodedLen v ≤ 4 := by
  rw [encodedLen_eq]; split <;> try split <;> try split
  all_goals omega

theorem encodedBytes_length (v : Nat) : (encodedBytes v).length = encodedLen v := by
  have h4 := encodedLen_le_four v
  simp only [encodedBytes, encode_num_scalar, encodedLen] at *
  simp only [List.length_take, u32_to_le_bytes, List.length_cons, List.length_nil]
  omega

/-- Decoding with the number's own byte length from its own encoded bytes
(followed by anything) recovers the number. -/
theorem decode_encode_num (v : Nat) (hv : v < 4294967296) (rest : List Nat) :
    decode_num_scalar (encodedLen v) (encodedBytes v ++ rest) = some v := by
  have h4 := encodedLen_le_four v
  have h1 := encodedLen_pos v
  have hlen := encodedBytes_length v
  have htake : (encodedBytes v ++ rest).take (encodedLen v) = encodedBytes v := by
    rw [List.take_append_of_le_length (by omega), List.take_of_length_le (by omega)]
  simp only [decode_num_scalar, List.length_append]
  rw [if_pos (by omega), htake]
  have hif := encodedLen_eq v
  simp only [encodedBytes, encode_num_scalar, encodedLen] at *
  by_cases c1 : v < 256
  · simp only [c1, if_true] at hif
    rw [hif] at htake ⊢
    simp [u32_to_le_bytes, u32_from_le_bytes]
    omega
  · by_cases c2 : v < 65536
    · simp only [c1, c2, if_false, if_true] at hif
      rw [hif]
      simp [u32_to_le_bytes, u32_from_le_bytes]
      omega
    · by_cases c3 : v < 16777216
      · simp only [c1, c2, c3, if_false, if_true] at hif
        rw [hif]
        simp [u32_to_le_bytes, u32_from_le_bytes]
        omega
      · simp only [c1, c2, c3, if_false] at hif
        rw [hif]
        simp [u32_to_le_bytes, u32_from_le_bytes]
        omega

/-- Packing four 2-bit codes with shifts and ORs is plain positional
arithmetic. -/
theorem pack_codes_eq : ∀ a b c d : Fin 4,
    ((a : Nat) ||| ((b : Nat) <<< 2) ||| ((c : Nat) <<< 4) ||| ((d : Nat) <<< 6))
      = (a : Nat) + 4 * b + 16 * c + 64 * d := by decide

/-- Lane extraction inverts code packing. -/
theorem lanes_of_packed (a b c d : Nat) (ha : a ≤ 3) (hb : b ≤ 3) (hc : c ≤ 3)
    (hd : d ≤ 3) :
    decode_length_per_num (a + 4 * b + 16 * c + 64 * d) = (a + 1, b + 1, c + 1, d + 1) := by
  simp only [decode_length_per_num, Prod.mk.injEq]
  refine ⟨by omega, by omega, by omega, by omega⟩

/-! ## Quad structure of an input sequence -/

/-- Flatten a list of quads into the input number sequence. -/
def quadList : List (Nat × Nat × Nat × Nat) → List Nat
  | [] => []
  | (a, b, c, d) :: qs => a :: b :: c :: d :: quadList qs

/-- The control byte of one quad, as `Scalar::encode_quads` packs it. -/
def quadControlByte (q : Nat × Nat × Nat × Nat) : Nat :=
  (encodedLen q.1 - 1) ||| ((encodedLen q.2.1 - 1) <<< 2) |||
    ((encodedLen q.2.2.1 - 1) <<< 4) ||| ((encodedLen q.2.2.2 - 1) <<< 6)

/-- The value bytes of one quad: the four encodings concatenated. -/
def quadBytes (q : Nat × Nat × Nat × Nat) : List Nat :=
  encodedBytes q.1 ++ encodedBytes q.2.1 ++ encodedBytes q.2.2.1 ++ encodedBytes q.2.2.2

/-- The value-byte length of one quad. -/
def quadLen (q : Nat × Nat × Nat × Nat) : Nat :=
  encodedLen q.1 + encodedLen q.2.1 + encodedLen q.2.2.1 + encodedLen q.2.2.2

/-- Split an input sequence into its complete quads and the 0–3 leftover
numbers. -/
def toQuads : List Nat → List (Nat × Nat × Nat × Nat) × List Nat
  | a :: b :: c :: d :: t => ((a, b, c, d) :: (toQuads t).1, (toQuads t).2)
  | t => ([], t)

theorem quadList_length (qs : List (Nat × Nat × Nat × Nat)) :
    (quadList qs).length = 4 * qs.length := by
  induction qs with
  | nil => rfl
  | cons q qs ih =>
    match q with
    | (a, b, c, d) => simp [quadList, ih]; omega

theorem toQuads_append (xs : List Nat) :
    quadList (toQuads xs).1 ++ (toQuads xs).2 = xs := by
  induction xs using toQuads.induct with
  | case1 a b c d t ih => simp [toQuads, quadList, ih]
  | case2 t h => simp [toQuads, quadList]

theorem toQuads_fst_length (xs : List Nat) :
    (toQuads xs).1.length = xs.length / 4 := by
  induction xs using toQuads.induct with
  | case1 a b c d t ih =>
    simp only [toQuads, List.length_cons, ih]
    omega
  | case2 t h =>
    match t, h with
    | [], _ => simp [toQuads]
    | [a], _ => simp [toQuads]
    | [a, b], _ => simp [toQuads]
    | [a, b, c], _ => simp [toQuads]
    | a :: b :: c :: d :: t2, h => exact absurd rfl (h a b c d t2)

theorem toQuads_snd_length (xs : List Nat) :
    (toQuads xs).2.length = xs.length % 4 := by
  induction xs using toQuads.induct with
  | case1 a b c d t ih =>
    simp only [toQuads, List.length_cons, ih]
    omega
  | case2 t h =>
    match t, h with
    | [], _ => simp [toQuads]
    | [a], _ => simp [toQuads]
    | [a, b], _ => simp [toQuads]
    | [a, b, c], _ => simp [toQuads]
    | a :: b :: c :: d :: t2, h => exact absurd rfl (h a b c d t2)

theorem quadControlByte_eq (q : Nat × Nat × Nat × Nat) :
    quadControlByte q = (encodedLen q.1 - 1) + 4 * (encodedLen q.2.1 - 1) +
      16 * (encodedLen q.2.2.1 - 1) + 64 * (encodedLen q.2.2.2 - 1) := by
  have h1a := encodedLen_pos q.1
  have h1b := encodedLen_le_four q.1
  have h2a := encodedLen_pos q.2.1
  have h2b := encodedLen_le_four q.2.1
  have h3a := encodedLen_pos q.2.2.1
  have h3b := encodedLen_le_four q.2.2.1
  have h4a := encodedLen_pos q.2.2.2
  have h4b := encodedLen_le_four q.2.2.2
  have := pack_codes_eq ⟨encodedLen q.1 - 1, by omega⟩ ⟨encodedLen q.2.1 - 1, by omega⟩
    ⟨encodedLen q.2.2.1 - 1, by omega⟩ ⟨encodedLen q.2.2.2 - 1, by omega⟩
  simpa [quadControlByte] using this

/-- Closed form for the scalar quad encoder on an input that holds one
quad per requested control byte (plus anything after them). -/
theorem scalar_encode_quads_eq (qs : List (Nat × Nat × Nat × Nat)) (rest : List Nat) :
    scalar_encode_quads (quadList qs ++ rest) qs.length =
      some (qs.map quadControlByte, (qs.map quadBytes).flatten,
            4 * qs.length, (qs.map quadLen).sum) := by
  induction qs with
  | nil => simp [quadList, scalar_encode_quads]
  | cons q qs ih =>
    match q with
    | (a, b, c, d) =>
      simp only [quadList, List.cons_append, List.length_cons, scalar_encode_quads,
        List.append_eq]
      rw [ih]
      simp only [List.map_cons, List.flatten_cons, List.sum_cons, quadControlByte,
        quadBytes, quadLen, List.append_assoc, Option.some.injEq, Prod.mk.injEq]
      exact ⟨trivial, trivial, by omega, trivial⟩

/-! ## Closed form of the scalar encode driver -/

theorem encode_leftover_go_snd (vs : List Nat) : ∀ i,
    (encode_leftover_go vs i).2 = (vs.map encodedBytes).flatten := by
  induction vs with
  | nil => intro i; rfl
  | cons v vs ih => intro i; simp [encode_leftover_go, ih]

theorem encode_leftover_go_snd_length (vs : List Nat) :
    ((encode_leftover_go vs 0).2).length = (vs.map encodedLen).sum := by
  rw [encode_leftover_go_snd]
  induction vs with
  | nil => rfl
  | cons v vs ih => simp [ih, encodedBytes_length]

theorem pack_lane1 : ∀ a : Fin 4, ((0 : Nat) ||| ((a : Nat) <<< (0 * 2))) = (a : Nat) := by
  decide

theorem pack_lane2 : ∀ a b : Fin 4,
    (((0 : Nat) ||| ((b : Nat) <<< (1 * 2))) ||| ((a : Nat) <<< (0 * 2)))
      = (a : Nat) + 4 * (b : Nat) := by decide

theorem pack_lane3 : ∀ a b c : Fin 4,
    ((((0 : Nat) ||| ((c : Nat) <<< (2 * 2))) ||| ((b : Nat) <<< (1 * 2))) |||
        ((a : Nat) <<< (0 * 2)))
      = (a : Nat) + 4 * (b : Nat) + 16 * (c : Nat) := by decide

/-- The first `leftover` lanes of the final control byte carry the
leftover numbers' byte lengths. -/
theorem leftover_lanes (vs : List Nat) (hv : vs.length ≤ 3) :
    (lanes_list (encode_leftover_go vs 0).1).take vs.length = vs.map encodedLen := by
  match vs, hv with
  | [], _ => simp [lanes_list]
  | [a], _ =>
    have h1 := encodedLen_pos a
    have h2 := encodedLen_le_four a
    have hp := pack_lane1 ⟨encodedLen a - 1, by omega⟩
    simp only [encode_leftover_go]
    simp only at hp
    rw [hp]
    simp only [lanes_list, List.map_cons, List.map_nil, List.length_cons, List.length_nil,
      List.take_succ_cons, List.take_zero, List.cons.injEq, and_true]
    omega
  | [a, b], _ =>
    have h1a := encodedLen_pos a
    have h2a := encodedLen_le_four a
    have h1b := encodedLen_pos b
    have h2b := encodedLen_le_four b
    have hp := pack_lane2 ⟨encodedLen a - 1, by omega⟩ ⟨encodedLen b - 1, by omega⟩
    simp only [encode_leftover_go]
    simp only at hp
    rw [hp]
    simp only [lanes_list, List.map_cons, List.map_nil, List.length_cons, List.length_nil,
      List.take_succ_cons, List.take_zero, List.cons.injEq, and_true]
    omega
  | [a, b, c], _ =>
    have h1a := encodedLen_pos a
    have h2a := encodedLen_le_four a
    have h1b := encodedLen_pos b
    have h2b := encodedLen_le_four b
    have h1c := encodedLen_pos c
    have h2c := encodedLen_le_four c
    have hp := pack_lane3 ⟨encodedLen a - 1, by omega⟩ ⟨encodedLen b - 1, by omega⟩
      ⟨encodedLen c - 1, by omega⟩
    simp only [encode_leftover_go]
    simp only at hp
    rw [hp]
    simp only [lanes_list, List.map_cons, List.map_nil, List.length_cons, List.length_nil,
      List.take_succ_cons, List.take_zero, List.cons.injEq, and_true]
    omega

/-- Closed form of `encode_scalar` on an input split into complete quads
and 0–3 leftover numbers. -/
theorem encode_scalar_closed (qs : List (Nat × Nat × Nat × Nat)) (rest : List Nat)
    (hr : rest.length ≤ 3) :
    encode_scalar (quadList qs ++ rest) =
      some ((qs.map quadControlByte ++
              (if rest.length = 0 then [] else [(encode_leftover_go rest 0).1])) ++
              (qs.map quadBytes).flatten ++ (rest.map encodedBytes).flatten,
            ((quadList qs ++ rest).length + 3) / 4 +
              ((qs.map quadLen).sum + (rest.map encodedLen).sum)) := by
  have hql := quadList_length qs
  have hlen : (quadList qs ++ rest).length = 4 * qs.length + rest.length := by
    simp [List.length_append, hql]
  by_cases hempty : (quadList qs ++ rest).length = 0
  · have hq : qs = [] := List.length_eq_zero.mp (by omega)
    have hrest : rest = [] := List.length_eq_zero.mp (by omega)
    subst hq hrest
    simp [encode_scalar, quadList]
  · simp only [encode_scalar, hempty, if_false, encoded_shape]
    have hdiv : (quadList qs ++ rest).length / 4 = qs.length := by omega
    have hmod : (quadList qs ++ rest).length % 4 = rest.length := by omega
    rw [hdiv, hmod]
    rw [show scalar_encode_quads (quadList qs ++ rest) qs.length =
      some (qs.map quadControlByte, (qs.map quadBytes).flatten,
            4 * qs.length, (qs.map quadLen).sum) from scalar_encode_quads_eq qs rest]
    have hdrop : (quadList qs ++ rest).drop (qs.length * 4) = rest := by
      rw [List.drop_append_of_le_length (by omega)]
      rw [List.drop_of_length_le (by omega), List.nil_append]
    rw [hdrop]
    simp only [Option.some.injEq, Prod.mk.injEq]
    constructor
    · rcases Nat.eq_zero_or_pos rest.length with h0 | h0
      · have h1 : ¬rest.length > 0 := by omega
        simp [h0, h1, encode_leftover_go_snd]
      · have h1 : ¬rest.length = 0 := by omega
        simp [h0, h1, encode_leftover_go_snd]
    · rw [encode_leftover_go_snd_length]

/-! ## Round trip: decoding what the scalar encoder produced -/

/-- The `on_number` emissions that deliver a number sequence starting at
output index `i`. -/
def emissionsOf : List Nat → Nat → List (Nat × Nat)
  | [], _ => []
  | v :: vs, i => (v, i) :: emissionsOf vs (i + 1)

theorem emissionsOf_length (xs : List Nat) : ∀ i, (emissionsOf xs i).length = xs.length := by
  induction xs with
  | nil => intro i; rfl
  | cons v vs ih => intro i; simp [emissionsOf, ih]

theorem emissionsOf_append (xs : List Nat) : ∀ (ys : List Nat) (i : Nat),
    emissionsOf (xs ++ ys) i = emissionsOf xs i ++ emissionsOf ys (i + xs.length) := by
  induction xs with
  | nil => intro ys i; simp [emissionsOf]
  | cons v vs ih =>
    intro ys i
    simp only [List.cons_append, emissionsOf, List.append_eq, ih, List.length_cons]
    rw [show i + (vs.length + 1) = i + 1 + vs.length by omega]

theorem drop_append_of_length (x y : List Nat) (n : Nat) (h : x.length = n) :
    (x ++ y).drop n = y := by
  subst h; exact List.drop_left x y

theorem lanes_of_quadControlByte (q : Nat × Nat × Nat × Nat) :
    decode_length_per_num (quadControlByte q) =
      (encodedLen q.1, encodedLen q.2.1, encodedLen q.2.2.1, encodedLen q.2.2.2) := by
  rw [quadControlByte_eq]
  have h1a := encodedLen_pos q.1
  have h1b := encodedLen_le_four q.1
  have h2a := encodedLen_pos q.2.1
  have h2b := encodedLen_le_four q.2.1
  have h3a := encodedLen_pos q.2.2.1
  have h3b := encodedLen_le_four q.2.2.1
  have h4a := encodedLen_pos q.2.2.2
  have h4b := encodedLen_le_four q.2.2.2
  simp only [decode_length_per_num, Prod.mk.injEq]
  refine ⟨by omega, by omega, by omega, by omega⟩

/-- Decoding the control bytes and value bytes the scalar quad encoder
produced (with anything appended to the value bytes) recovers the input
quads, one `on_number` emission per number. -/
theorem scalar_decode_go_rt (qs : List (Nat × Nat × Nat × Nat)) :
    ∀ (extra : List Nat) (nd : Nat), (∀ v ∈ quadList qs, v < 4294967296) →
    scalar_decode_go (qs.map quadControlByte) ((qs.map quadBytes).flatten ++ extra) nd =
      some (emissionsOf (quadList qs) nd, (qs.map quadLen).sum) := by
  induction qs with
  | nil =>
    intro extra nd _
    simp [quadList, scalar_decode_go, emissionsOf]
  | cons q qs ih =>
    match q with
    | (a, b, c, d) =>
      intro extra nd hv
      have hva : a < 4294967296 := hv a (by simp [quadList])
      have hvb : b < 4294967296 := hv b (by simp [quadList])
      have hvc : c < 4294967296 := hv c (by simp [quadList])
      have hvd : d < 4294967296 := hv d (by simp [quadList])
      have hvrest : ∀ v ∈ quadList qs, v < 4294967296 := by
        intro v hm; exact hv v (by simp [quadList, hm])
      have hcb := lanes_of_quadControlByte (a, b, c, d)
      simp only [List.map_cons, List.flatten_cons, quadBytes, List.append_assoc] at *
      simp only [scalar_decode_go, hcb]
      have e1 : (encodedBytes a ++ (encodedBytes b ++ (encodedBytes c ++ (encodedBytes d ++
          ((qs.map quadBytes).flatten ++ extra))))).drop (encodedLen a) =
          encodedBytes b ++ (encodedBytes c ++ (encodedBytes d ++
            ((qs.map quadBytes).flatten ++ extra))) :=
        drop_append_of_length _ _ _ (encodedBytes_length a)
      have e2 : (encodedBytes a ++ (encodedBytes b ++ (encodedBytes c ++ (encodedBytes d ++
          ((qs.map quadBytes).flatten ++ extra))))).drop (encodedLen a + encodedLen b) =
          encodedBytes c ++ (encodedBytes d ++ ((qs.map quadBytes).flatten ++ extra)) := by
        rw [← List.append_assoc]
        exact drop_append_of_length _ _ _
          (by simp [List.length_append, encodedBytes_length] <;> omega)
      have e3 : (encodedBytes a ++ (encodedBytes b ++ (encodedBytes c ++ (encodedBytes d ++
          ((qs.map quadBytes).flatten ++ extra))))).drop
            (encodedLen a + encodedLen b + encodedLen c) =
          encodedBytes d ++ ((qs.map quadBytes).flatten ++ extra) := by
        rw [← List.append_assoc, ← List.append_assoc]
        exact drop_append_of_length _ _ _
          (by simp [List.length_append, encodedBytes_length] <;> omega)
      have e4 : (encodedBytes a ++ (encodedBytes b ++ (encodedBytes c ++ (encodedBytes d ++
          ((qs.map quadBytes).flatten ++ extra))))).drop
            (encodedLen a + encodedLen b + encodedLen c + encodedLen d) =
          (qs.map quadBytes).flatten ++ extra := by
        rw [← List.append_assoc, ← List.append_assoc, ← List.append_assoc]
        exact drop_append_of_length _ _ _
          (by simp [List.length_append, encodedBytes_length] <;> omega)
      rw [e1, e2, e3, e4]
      rw [decode_encode_num a hva, decode_encode_num b hvb, decode_encode_num c hvc,
        decode_encode_num d hvd]
      rw [ih (extra) (nd + 4) hvrest]
      simp only [quadList, emissionsOf, quadLen, List.sum_cons, Option.some.injEq,
        Prod.mk.injEq]

theorem flatten_quadBytes_length (qs : List (Nat × Nat × Nat × Nat)) :
    ((qs.map quadBytes).flatten).length = (qs.map quadLen).sum := by
  induction qs with
  | nil => rfl
  | cons q qs ih =>
    simp only [List.map_cons, List.flatten_cons, List.length_append, ih, List.sum_cons]
    match q with
    | (a, b, c, d) =>
      simp [quadBytes, quadLen, List.length_append, encodedBytes_length]
      omega

theorem flatten_encodedBytes_length (vs : List Nat) :
    ((vs.map encodedBytes).flatten).length = (vs.map encodedLen).sum := by
  induction vs with
  | nil => rfl
  | cons v vs ih =>
    simp [List.length_append, ih, encodedBytes_length]

/-- Decoding the leftover lanes from the leftover value bytes recovers
the leftover numbers. -/
theorem partial_decode_go_rt (vs : List Nat) : ∀ idx, (∀ v ∈ vs, v < 4294967296) →
    partial_decode_go (vs.map encodedLen) ((vs.map encodedBytes).flatten) idx =
      some (emissionsOf vs idx, (vs.map encodedLen).sum) := by
  induction vs with
  | nil => intro idx _; simp [partial_decode_go, emissionsOf]
  | cons v vs ih =>
    intro idx hv
    have hvv : v < 4294967296 := hv v (by simp)
    have hvrest : ∀ w ∈ vs, w < 4294967296 := fun w hm => hv w (by simp [hm])
    simp only [List.map_cons, List.flatten_cons, partial_decode_go]
    rw [decode_encode_num v hvv, drop_append_of_length _ _ _ (encodedBytes_length v),
      ih (idx + 1) hvrest]
    simp [emissionsOf]

/-- Writing the emissions of a number sequence into an output slice of
the right length reproduces the sequence after the untouched prefix. -/
theorem write_emissions_eq (xs : List Nat) : ∀ (out : List Nat) (i : Nat),
    out.length = i + xs.length →
    write_emissions out (emissionsOf xs i) = out.take i ++ xs := by
  induction xs with
  | nil =>
    intro out i h
    simp only [List.length_nil] at h
    simp only [emissionsOf, write_emissions, List.foldl_nil, List.append_nil]
    rw [List.take_of_length_le (by omega)]
  | cons v vs ih =>
    intro out i h
    simp only [List.length_cons] at h
    have hi : i < out.length := by omega
    simp only [emissionsOf, write_emissions, List.foldl_cons]
    have := ih (out.set i v) (i + 1) (by simp only [List.length_set]; omega)
    simp only [write_emissions] at this
    rw [this]
    rw [List.set_eq_take_cons_drop v hi]
    rw [List.take_append_eq_append_take]
    rw [List.take_of_length_le (by simp [List.length_take])]
    simp only [List.length_take]
    rw [show i + 1 - min i out.length = 1 by omega]
    simp

/-- Decoding the scalar encoder's output: complete-quads-only case. -/
theorem decode_encode_scalar_complete (qs : List (Nat × Nat × Nat × Nat))
    (hv1 : ∀ v ∈ quadList qs, v < 4294967296) :
    decode_scalar (qs.map quadControlByte ++ (qs.map quadBytes).flatten)
        (quadList qs).length =
      some (quadList qs, ((quadList qs).length + 3) / 4 + (qs.map quadLen).sum) := by
  have hql := quadList_length qs
  have hA : (qs.map quadControlByte).length = qs.length := by simp
  have hC := flatten_quadBytes_length qs
  have hclen : ((quadList qs).length + 3) / 4 = qs.length := by omega
  simp only [decode_scalar, encoded_shape]
  rw [hclen]
  rw [if_pos (by simp only [List.length_append, hA]; omega)]
  rw [List.take_left' hA, List.drop_left' hA]
  simp only [cursor_decode_slice, encoded_shape, scalar_decode_quads]
  have hdiv : (quadList qs).length / 4 = qs.length := by omega
  have hmod : (quadList qs).length % 4 = 0 := by omega
  rw [hdiv, hmod, hA, Nat.min_self, List.take_of_length_le (Nat.le_of_eq hA)]
  have hgo : scalar_decode_go (qs.map quadControlByte) ((qs.map quadBytes).flatten) 0 =
      some (emissionsOf (quadList qs) 0, (qs.map quadLen).sum) := by
    have := scalar_decode_go_rt qs [] 0 hv1
    simpa using this
  rw [hgo]
  simp only [if_true, emissionsOf_length, eq_self_iff_true]
  rw [write_emissions_eq (quadList qs) (List.replicate (quadList qs).length 0) 0
    (by simp [List.length_replicate])]
  simp

/-- Decoding the scalar encoder's output: trailing-partial-quad case. -/
theorem decode_encode_scalar_leftover (qs : List (Nat × Nat × Nat × Nat)) (rest : List Nat)
    (h1 : 1 ≤ rest.length) (hr : rest.length ≤ 3)
    (hv1 : ∀ v ∈ quadList qs, v < 4294967296) (hv2 : ∀ v ∈ rest, v < 4294967296) :
    decode_scalar ((qs.map quadControlByte ++ [(encode_leftover_go rest 0).1]) ++
        (qs.map quadBytes).flatten ++ (rest.map encodedBytes).flatten)
        (quadList qs ++ rest).length =
      some (quadList qs ++ rest,
        ((quadList qs ++ rest).length + 3) / 4 +
          ((qs.map quadLen).sum + (rest.map encodedLen).sum)) := by
  have hql := quadList_length qs
  have hA : (qs.map quadControlByte).length = qs.length := by simp
  have hC := flatten_quadBytes_length qs
  have hD := flatten_encodedBytes_length rest
  have hn : (quadList qs ++ rest).length = 4 * qs.length + rest.length := by
    simp [List.length_append, hql]
  have hclen : ((quadList qs ++ rest).length + 3) / 4 = qs.length + 1 := by omega
  have hAB : (qs.map quadControlByte ++ [(encode_leftover_go rest 0).1]).length
      = qs.length + 1 := by simp [hA]
  simp only [decode_scalar, encoded_shape]
  rw [hclen, List.append_assoc]
  rw [if_pos (by simp only [List.length_append, hA, List.length_cons, List.length_nil]; omega)]
  rw [List.take_left' hAB, List.drop_left' hAB]
  simp only [cursor_decode_slice, encoded_shape, scalar_decode_quads]
  have hdiv : (quadList qs ++ rest).length / 4 = qs.length := by omega
  have hmod : (quadList qs ++ rest).length % 4 = rest.length := by omega
  rw [hdiv, hmod]
  have hmin : min (qs.map quadControlByte ++ [(encode_leftover_go rest 0).1]).length
      qs.length = qs.length := by rw [hAB]; omega
  rw [hmin, List.take_left' hA]
  rw [scalar_decode_go_rt qs ((rest.map encodedBytes).flatten) 0 hv1]
  dsimp only
  have hr0 : ¬rest.length = 0 := by omega
  rw [if_neg hr0]
  rw [List.getD_append_right _ _ _ _ (by omega : (qs.map quadControlByte).length ≤ qs.length)]
  simp only [hA, Nat.sub_self, List.getD_cons_zero]
  rw [leftover_lanes rest hr]
  rw [drop_append_of_length _ _ _ hC]
  rw [partial_decode_go_rt rest (qs.length * 4) hv2]
  dsimp only
  have hidx : 0 + (quadList qs).length = qs.length * 4 := by omega
  have hemis : emissionsOf (quadList qs) 0 ++ emissionsOf rest (qs.length * 4) =
      emissionsOf (quadList qs ++ rest) 0 := by
    rw [emissionsOf_append, hidx]
  simp only [hemis]
  simp only [emissionsOf_length, eq_self_iff_true, if_true]
  rw [write_emissions_eq (quadList qs ++ rest)
    (List.replicate (quadList qs ++ rest).length 0) 0 (by simp [List.length_replicate])]
  simp

theorem sum_encodedLen_quadList (qs : List (Nat × Nat × Nat × Nat)) :
    ((quadList qs).map encodedLen).sum = (qs.map quadLen).sum := by
  induction qs with
  | nil => rfl
  | cons q qs ih =>
    match q with
    | (a, b, c, d) =>
      simp only [quadList, List.map_cons, List.sum_cons, ih, quadLen]
      omega

/-! ## Claim theorems -/

/-- C1.  Round trip: for every finite sequence `xs` of 32-bit unsigned
integers, encoding `xs` with `encode` (scalar backend, output modelled as
the bytes written into a sufficiently large buffer) and then decoding the
encoded bytes with `decode`, passing `count = |xs|`, yields exactly the
sequence `xs`. -/
theorem c1_round_trip (xs : List Nat) (h : ∀ v ∈ xs, v < 4294967296) :
    ∃ encoded count, encode_scalar xs = some (encoded, count) ∧
      (decode_scalar encoded xs.length).map Prod.fst = some xs := by
  have hxs := toQuads_append xs
  have hrlen : (toQuads xs).2.length ≤ 3 := by
    have := toQuads_snd_length xs
    omega
  rw [← hxs]
  rw [encode_scalar_closed (toQuads xs).1 (toQuads xs).2 hrlen]
  refine ⟨_, _, rfl, ?_⟩
  have hv1 : ∀ v ∈ quadList (toQuads xs).1, v < 4294967296 := fun v hm =>
    h v (by rw [← hxs]; exact List.mem_append_left _ hm)
  have hv2 : ∀ v ∈ (toQuads xs).2, v < 4294967296 := fun v hm =>
    h v (by rw [← hxs]; exact List.mem_append_right _ hm)
  rcases Nat.eq_zero_or_pos (toQuads xs).2.length with h0 | h0
  · have hrest : (toQuads xs).2 = [] := List.length_eq_zero.mp h0
    rw [hrest]
    simp only [List.length_nil, eq_self_iff_true, if_true, List.map_nil, List.flatten_nil,
      List.append_nil]
    rw [decode_encode_scalar_complete (toQuads xs).1 hv1]
    simp
  · rw [if_neg (by omega)]
    rw [decode_encode_scalar_leftover (toQuads xs).1 (toQuads xs).2 (by omega) hrlen hv1 hv2]
    simp

/-- C4.  Scalar encoder contract: on an input holding one quad per
requested control byte (plus anything after them), `Scalar::encode_quads`
encodes each value little-endian with byte length
`max(1, 4 - leading_zero_bits/8)`, packs the four 2-bit codes
`length_i - 1` into the control byte with lane 0 in the two
least-significant bits, and returns `nums_encoded = 4·n` and
`bytes_written = Σ lengths`. -/
theorem c4_scalar_encoder_contract (qs : List (Nat × Nat × Nat × Nat)) (rest : List Nat) :
    scalar_encode_quads (quadList qs ++ rest) qs.length =
      some (qs.map (fun q => (encodedLen q.1 - 1) + 4 * (encodedLen q.2.1 - 1) +
              16 * (encodedLen q.2.2.1 - 1) + 64 * (encodedLen q.2.2.2 - 1)),
            (qs.map (fun q => (u32_to_le_bytes q.1).take (encodedLen q.1) ++
              (u32_to_le_bytes q.2.1).take (encodedLen q.2.1) ++
              (u32_to_le_bytes q.2.2.1).take (encodedLen q.2.2.1) ++
              (u32_to_le_bytes q.2.2.2).take (encodedLen q.2.2.2))).flatten,
            4 * qs.length, (qs.map quadLen).sum) := by
  rw [scalar_encode_quads_eq qs rest]
  refine congrArg some ?_
  have h1 : qs.map quadControlByte = qs.map (fun q => (encodedLen q.1 - 1) +
      4 * (encodedLen q.2.1 - 1) + 16 * (encodedLen q.2.2.1 - 1) +
      64 * (encodedLen q.2.2.2 - 1)) :=
    List.map_congr_left (fun q _ => quadControlByte_eq q)
  have h2 : qs.map quadBytes = qs.map (fun q => (u32_to_le_bytes q.1).take (encodedLen q.1) ++
      (u32_to_le_bytes q.2.1).take (encodedLen q.2.1) ++
      (u32_to_le_bytes q.2.2.1).take (encodedLen q.2.2.1) ++
      (u32_to_le_bytes q.2.2.2).take (encodedLen q.2.2.2)) := by
    refine List.map_congr_left (fun q _ => ?_)
    simp [quadBytes, encodedBytes, encode_num_scalar, encodedLen, List.append_assoc]
  rw [h1, h2]

/-- C6.  Length consistency: for every input sequence (including the
empty one) the scalar `encode` driver returns exactly
`⌈|xs|/4⌉ + Σ encoded_length(v)` with
`encoded_length(v) = max(1, 4 - leading_zero_bytes(v))`, and that count
never exceeds `5·|xs|`. -/
theorem c6_length_consistency (xs : List Nat) :
    ∃ out, encode_scalar xs =
        some (out, (xs.length + 3) / 4 + (xs.map encodedLen).sum) ∧
      (xs.length + 3) / 4 + (xs.map encodedLen).sum ≤ 5 * xs.length := by
  have hxs := toQuads_append xs
  have hrlen : (toQuads xs).2.length ≤ 3 := by
    have := toQuads_snd_length xs
    omega
  have hsum : (xs.map encodedLen).sum =
      ((toQuads xs).1.map quadLen).sum + ((toQuads xs).2.map encodedLen).sum := by
    conv in xs.map encodedLen => rw [← hxs]
    rw [List.map_append, List.sum_append, sum_encodedLen_quadList]
  have hbound : ∀ ys : List Nat, (ys.map encodedLen).sum ≤ 4 * ys.length := by
    intro ys
    induction ys with
    | nil => simp
    | cons y ys ih =>
      have := encodedLen_le_four y
      simp only [List.map_cons, List.sum_cons, List.length_cons]
      omega
  have henc : encode_scalar xs =
      some (((toQuads xs).1.map quadControlByte ++
              (if (toQuads xs).2.length = 0 then []
               else [(encode_leftover_go (toQuads xs).2 0).1])) ++
              ((toQuads xs).1.map quadBytes).flatten ++
              ((toQuads xs).2.map encodedBytes).flatten,
            (xs.length + 3) / 4 + (xs.map encodedLen).sum) := by
    conv in encode_scalar xs => rw [← hxs]
    rw [encode_scalar_closed (toQuads xs).1 (toQuads xs).2 hrlen]
    rw [hxs, ← hsum]
  have hle : (xs.length + 3) / 4 + (xs.map encodedLen).sum ≤ 5 * xs.length := by
    have := hbound xs
    have h0 : xs.length = 0 ∨ 1 ≤ xs.length := by omega
    rcases h0 with h0 | h0
    · have : xs = [] := List.length_eq_zero.mp h0
      subst this
      simp
    · omega
  exact ⟨_, henc, hle⟩

/-- C9 counterexample.  The claim asserts the control byte for
`[0, 1, 256, 65536]` is `0xA0`; the encoder's output is not that byte
string: `(0) | (0<<2) | (1<<4) | (2<<6) = 0x90`, not `0xA0`. -/
theorem c9_counterexample :
    encode_scalar [0, 1, 256, 65536] ≠
      some ([0xA0, 0x00, 0x01, 0x00, 0x01, 0x00, 0x00, 0x01], 8) := by decide

/-- C9 amended.  Encoding `[0, 1, 256, 65536]` produces exactly 8 bytes:
one control byte `(0) | (0<<2) | (1<<4) | (2<<6) = 0x90` followed by the
seven value bytes `00 01 00 01 00 00 01`. -/
theorem c9_amended :
    encode_scalar [0, 1, 256, 65536] =
      some ([0x90, 0x00, 0x01, 0x00, 0x01, 0x00, 0x00, 0x01], 8) := by decide

/-! ## Closed form of the scalar quad decoder -/

/-- `cumulative_encoded_len` (`src/lib.rs`): the total value-byte length
described by a run of control bytes. -/
def cumulative_encoded_len (controlBytes : List Nat) : Nat :=
  (controlBytes.map decode_length_per_quad).sum

/-- The zero-extended little-endian value of the next `len` bytes — the
success value of `decode_num_scalar`. -/
def lane_value (len : Nat) (bytes : List Nat) : Nat :=
  u32_from_le_bytes (bytes.take len ++ List.replicate (4 - len) 0)

/-- The four `on_number` deliveries of one decoded quad: for lane `i`,
the zero-extended little-endian value of the next `l_i` bytes at the
running offset, reported at index `idx + i`. -/
def quad_emissions (c : Nat) (bytes : List Nat) (idx : Nat) : List (Nat × Nat) :=
  [(lane_value (c % 4 + 1) bytes, idx),
   (lane_value (c / 4 % 4 + 1) (bytes.drop (c % 4 + 1)), idx + 1),
   (lane_value (c / 16 % 4 + 1) (bytes.drop (c % 4 + 1 + (c / 4 % 4 + 1))), idx + 2),
   (lane_value (c / 64 % 4 + 1)
     (bytes.drop (c % 4 + 1 + (c / 4 % 4 + 1) + (c / 16 % 4 + 1))), idx + 3)]

theorem cumulative_encoded_len_cons (c : Nat) (cs : List Nat) :
    cumulative_encoded_len (c :: cs) =
      decode_length_per_quad c + cumulative_encoded_len cs := by
  simp [cumulative_encoded_len]

theorem decode_length_per_quad_ge (c : Nat) : 4 ≤ decode_length_per_quad c := by
  simp [decode_length_per_quad]

/-- Closed form for the scalar decode loop when the value bytes cover the
region the control bytes describe. -/
theorem scalar_decode_go_eq (cbs : List Nat) : ∀ (bytes : List Nat) (nd : Nat),
    cumulative_encoded_len cbs ≤ bytes.length →
    scalar_decode_go cbs bytes nd =
      some ((List.range cbs.length).flatMap (fun j =>
          quad_emissions (cbs.getD j 0) (bytes.drop (cumulative_encoded_len (cbs.take j)))
            (nd + 4 * j)),
        cumulative_encoded_len cbs) := by
  induction cbs with
  | nil =>
    intro bytes nd _
    simp [scalar_decode_go, cumulative_encoded_len]
  | cons c cs ih =>
    intro bytes nd h
    rw [cumulative_encoded_len_cons] at h
    have hq : decode_length_per_quad c =
        c % 4 + 1 + (c / 4 % 4 + 1) + (c / 16 % 4 + 1) + (c / 64 % 4 + 1) := by
      simp [decode_length_per_quad]; omega
    have hlen : decode_length_per_quad c ≤ bytes.length := by omega
    simp only [scalar_decode_go, decode_length_per_num]
    rw [show decode_num_scalar (c % 4 + 1) bytes =
        some (lane_value (c % 4 + 1) bytes) by
      simp only [decode_num_scalar, lane_value]
      rw [if_pos (by constructor <;> omega)]]
    rw [show decode_num_scalar (c / 4 % 4 + 1) (bytes.drop (c % 4 + 1)) =
        some (lane_value (c / 4 % 4 + 1) (bytes.drop (c % 4 + 1))) by
      simp only [decode_num_scalar, lane_value]
      rw [if_pos (by simp only [List.length_drop]; constructor <;> omega)]]
    rw [show decode_num_scalar (c / 16 % 4 + 1) (bytes.drop (c % 4 + 1 + (c / 4 % 4 + 1))) =
        some (lane_value (c / 16 % 4 + 1) (bytes.drop (c % 4 + 1 + (c / 4 % 4 + 1)))) by
      simp only [decode_num_scalar, lane_value]
      rw [if_pos (by simp only [List.length_drop]; constructor <;> omega)]]
    rw [show decode_num_scalar (c / 64 % 4 + 1)
          (bytes.drop (c % 4 + 1 + (c / 4 % 4 + 1) + (c / 16 % 4 + 1))) =
        some (lane_value (c / 64 % 4 + 1)
          (bytes.drop (c % 4 + 1 + (c / 4 % 4 + 1) + (c / 16 % 4 + 1)))) by
      simp only [decode_num_scalar, lane_value]
      rw [if_pos (by simp only [List.length_drop]; constructor <;> omega)]]
    rw [ih (bytes.drop (c % 4 + 1 + (c / 4 % 4 + 1) + (c / 16 % 4 + 1) + (c / 64 % 4 + 1)))
      (nd + 4) (by simp only [List.length_drop]; omega)]
    dsimp only
    refine congrArg some ?_
    refine Prod.mk.injEq .. ▸ ⟨?_, by rw [cumulative_encoded_len_cons]; omega⟩
    simp only [List.length_cons]
    rw [List.range_succ_eq_map, List.flatMap_cons, List.flatMap_map]
    simp only [List.take_zero, cumulative_encoded_len, List.map_nil, List.sum_nil,
      List.drop_zero, List.getD_cons_zero, Nat.mul_zero, Nat.add_zero]
    simp only [quad_emissions, List.cons_append, List.nil_append]
    refine congrArg _ (congrArg _ (congrArg _ (congrArg _ ?_)))
    refine List.flatMap_congr (fun j hj => ?_)
    simp only [Nat.succ_eq_add_one, List.getD_cons_succ, List.take_succ_cons,
      List.map_cons, List.sum_cons, List.drop_drop]
    have hXY : c % 4 + 1 + (c / 4 % 4 + 1) + (c / 16 % 4 + 1) + (c / 64 % 4 + 1) +
        (List.map decode_length_per_quad (List.take j cs)).sum =
        decode_length_per_quad c + (List.map decode_length_per_quad (List.take j cs)).sum := by
      rw [hq]
    rw [hXY, show nd + 4 + 4 * j = nd + 4 * (j + 1) by omega]

/-- C5.  Scalar decoder contract: with `k = min(control_bytes.len(),
max control bytes to decode)` and `encoded_nums` holding the
corresponding value bytes, `Scalar::decode_quads` delivers, for the
`j`-th decoded quad and lane `i`, the little-endian zero-extended value
of the next `l_i` bytes via `sink.on_number(value,
nums_already_decoded + 4·j + i)`, and returns `(4·k, Σ lane lengths of
the first k control bytes)`. -/
theorem c5_scalar_decoder_contract (cbs bytes : List Nat) (maxC already : Nat)
    (h : cumulative_encoded_len (cbs.take (min cbs.length maxC)) ≤ bytes.length) :
    scalar_decode_quads cbs bytes maxC already =
      some ((List.range (min cbs.length maxC)).flatMap (fun j =>
          quad_emissions (cbs.getD j 0)
            (bytes.drop (cumulative_encoded_len (cbs.take j))) (already + 4 * j)),
        4 * min cbs.length maxC,
        cumulative_encoded_len (cbs.take (min cbs.length maxC))) := by
  simp only [scalar_decode_quads]
  rw [scalar_decode_go_eq (cbs.take (min cbs.length maxC)) bytes already h]
  dsimp only
  have hlen : (cbs.take (min cbs.length maxC)).length = min cbs.length maxC := by
    simp only [List.length_take]
    omega
  refine congrArg some ?_
  rw [hlen]
  refine Prod.mk.injEq .. ▸ ⟨?_, rfl⟩
  refine List.flatMap_congr (fun j hj => ?_)
  have hj' : j < min cbs.length maxC := List.mem_range.mp hj
  have hgd : (cbs.take (min cbs.length maxC)).getD j 0 = cbs.getD j 0 := by
    simp only [List.getD_eq_getElem?_getD, List.getElem?_take, if_pos hj']
  have htk : (cbs.take (min cbs.length maxC)).take j = cbs.take j := by
    rw [List.take_take, Nat.min_eq_left (Nat.le_of_lt hj')]
  rw [hgd, htk]

/-- C5 witness: the contract instantiated on a concrete two-control-byte
stream. -/
theorem c5_scalar_decoder_contract_witness :
    cumulative_encoded_len (([144, 0] : List Nat).take
        (min ([144, 0] : List Nat).length 5)) ≤
      ([0, 1, 0, 1, 0, 0, 1, 9, 9, 9, 9] : List Nat).length ∧
    scalar_decode_quads [144, 0] [0, 1, 0, 1, 0, 0, 1, 9, 9, 9, 9] 5 7 =
      some ((List.range (min ([144, 0] : List Nat).length 5)).flatMap (fun j =>
          quad_emissions (([144, 0] : List Nat).getD j 0)
            (([0, 1, 0, 1, 0, 0, 1, 9, 9, 9, 9] : List Nat).drop
              (cumulative_encoded_len (([144, 0] : List Nat).take j))) (7 + 4 * j)),
        4 * min ([144, 0] : List Nat).length 5,
        cumulative_encoded_len (([144, 0] : List Nat).take
          (min ([144, 0] : List Nat).length 5))) :=
  ⟨by decide,
   c5_scalar_decoder_contract [144, 0] [0, 1, 0, 1, 0, 0, 1, 9, 9, 9, 9] 5 7 (by decide)⟩

/-- The top byte of the wrapping `u32` multiply by the `SUM` aggregator
is the sum of the four gathered lane codes. -/
theorem mulshift_sum (c0 c1 c2 c3 : Nat) (h0 : c0 ≤ 3) (h1 : c1 ≤ 3) (h2 : c2 ≤ 3)
    (h3 : c3 ≤ 3) :
    (c3 + 256 * c2 + 65536 * c1 + 16777216 * c0) * 16843009 % 4294967296 / 16777216
      = c0 + c1 + c2 + c3 := by
  have key : (c3 + 256 * c2 + 65536 * c1 + 16777216 * c0) * 16843009
      = (c3 + 256 * (c2 + c3) + 65536 * (c1 + c2 + c3)
          + 16777216 * (c0 + c1 + c2 + c3))
        + 4294967296 * (c0 + c1 + c2 + 256 * (c0 + c1) + 65536 * c0) := by ring
  rw [key, Nat.add_mul_mod_self_left, Nat.mod_eq_of_lt (by omega)]
  omega

theorem encodedLen_eq_sat (v : Nat) :
    encodedLen v = 1 + (3 - u32_leading_zeros v / 8) := by
  have := u32_leading_zeros_le v
  simp only [encodedLen, encode_num_scalar]
  omega

/-- C3.  `NeonEncoder::encode_quads` processes only the first quad of any
input holding at least one complete quad, for every `control_bytes`
slice: it returns `nums_encoded = 0` and `bytes_written` equal to the
encoded value-byte length of the first quad, regardless of how many
quads the input holds. -/
theorem c3_neon_encoder_first_quad_only (v0 v1 v2 v3 : Nat) (rest cbs : List Nat) :
    ∃ written, neon_encode_quads (v0 :: v1 :: v2 :: v3 :: rest) cbs =
      some (0, encodedLen v0 + encodedLen v1 + encodedLen v2 + encodedLen v3, written) := by
  refine ⟨vqtbl1q_u8
      (u32_to_le_bytes v0 ++ u32_to_le_bytes v1 ++ u32_to_le_bytes v2 ++ u32_to_le_bytes v3)
      (neon_encode_shuffle
        (((3 - u32_leading_zeros v3 / 8) + 256 * (3 - u32_leading_zeros v2 / 8) +
          65536 * (3 - u32_leading_zeros v1 / 8) +
          16777216 * (3 - u32_leading_zeros v0 / 8)) *
          1074791425 % 4294967296 / 16777216)), ?_⟩
  simp only [neon_encode_quads]
  refine congrArg some (Prod.mk.injEq .. ▸ ⟨rfl, Prod.mk.injEq .. ▸ ⟨?_, rfl⟩⟩)
  rw [mulshift_sum (3 - u32_leading_zeros v0 / 8) (3 - u32_leading_zeros v1 / 8)
    (3 - u32_leading_zeros v2 / 8) (3 - u32_leading_zeros v3 / 8)
    (by omega) (by omega) (by omega) (by omega)]
  rw [encodedLen_eq_sat v0, encodedLen_eq_sat v1, encodedLen_eq_sat v2, encodedLen_eq_sat v3]
  omega

/-- C2 evaluation at the failing input: the scalar-backed `encode` emits
the 5 bytes `[0x00, 0x00, 0x00, 0x00, 0x00]` for `[0, 0, 0, 0]` while the
NEON-backed `encode` emits 9 bytes, so the two backends do not produce
byte-for-byte identical encoded output. -/
theorem c2_neon_scalar_encode_divergence :
    encode_scalar [0, 0, 0, 0] = some ([0, 0, 0, 0, 0], 5) ∧
    encode_neon [0, 0, 0, 0] = some ([0, 0, 0, 0, 0, 0, 0, 0, 0], 9) ∧
    encode_neon [0, 0, 0, 0] ≠ encode_scalar [0, 0, 0, 0] := by decide

/-- C10.  `decode_num_scalar(len, input)` depends only on the first `len`
bytes of `input`: for `len` in `1..=4`, two byte slices agreeing on their
first `len` bytes decode to the same result. -/
theorem c10_decode_num_prefix_only (len : Nat) (a b : List Nat) (h1 : 1 ≤ len)
    (h2 : len ≤ 4) (h : a.take len = b.take len) :
    decode_num_scalar len a = decode_num_scalar len b := by
  have hlen : min len a.length = min len b.length := by
    have := congrArg List.length h
    simpa [List.length_take] using this
  simp only [decode_num_scalar, h]
  by_cases hA : len ≤ a.length
  · rw [if_pos ⟨h2, hA⟩, if_pos ⟨h2, by omega⟩]
  · rw [if_neg (fun hc => hA hc.2), if_neg (fun hc => absurd hc.2 (by omega))]

/-- C10 witness: two slices sharing a 2-byte prefix decode alike. -/
theorem c10_decode_num_prefix_only_witness :
    1 ≤ 2 ∧ 2 ≤ 4 ∧ ([7, 1, 99, 99] : List Nat).take 2 = ([7, 1, 3] : List Nat).take 2 ∧
    decode_num_scalar 2 [7, 1, 99, 99] = decode_num_scalar 2 [7, 1, 3] :=
  ⟨by decide, by decide, by decide,
   c10_decode_num_prefix_only 2 [7, 1, 99, 99] [7, 1, 3] (by decide) (by decide) (by decide)⟩

theorem cumulative_encoded_len_nil : cumulative_encoded_len [] = 0 := rfl

theorem cumulative_encoded_len_ge (l : List Nat) :
    4 * l.length ≤ cumulative_encoded_len l := by
  induction l with
  | nil => simp [cumulative_encoded_len]
  | cons c cs ih =>
    rw [cumulative_encoded_len_cons]
    have := decode_length_per_quad_ge c
    simp only [List.length_cons]
    omega

/-- Closed form for the NEON decode loop when the value bytes cover the
described region plus the 12-byte trailing margin. -/
theorem neon_decode_go_eq (cbs : List Nat) : ∀ (bytes : List Nat) (nd : Nat),
    cumulative_encoded_len cbs + 12 ≤ bytes.length →
    neon_decode_go cbs bytes nd =
      some ((List.range cbs.length).map (fun j =>
          (vqtbl1q_u8 ((bytes.drop (cumulative_encoded_len (cbs.take j))).take 16)
            (decode_shuffle (cbs.getD j 0)), nd + 4 * j)),
        cumulative_encoded_len cbs) := by
  induction cbs with
  | nil =>
    intro bytes nd _
    simp [neon_decode_go, cumulative_encoded_len]
  | cons c cs ih =>
    intro bytes nd h
    rw [cumulative_encoded_len_cons] at h
    have h4 := decode_length_per_quad_ge c
    simp only [neon_decode_go]
    rw [if_pos (by omega)]
    rw [ih (bytes.drop (decode_length_per_quad c)) (nd + 4)
      (by simp only [List.length_drop]; omega)]
    dsimp only
    refine congrArg some (Prod.mk.injEq .. ▸ ⟨?_, by rw [cumulative_encoded_len_cons]⟩)
    simp only [List.length_cons]
    rw [List.range_succ_eq_map, List.map_cons, List.map_map]
    simp only [List.take_zero, cumulative_encoded_len_nil, List.drop_zero,
      List.getD_cons_zero, Nat.mul_zero, Nat.add_zero]
    refine congrArg _ ?_
    refine List.map_congr_left (fun j hj => ?_)
    simp only [Function.comp_apply, Nat.succ_eq_add_one, List.getD_cons_succ,
      List.take_succ_cons, cumulative_encoded_len_cons, List.drop_drop]
    refine Prod.mk.injEq .. ▸ ⟨rfl, by omega⟩

/-- C7.  NEON decode kernel: it decodes exactly the control bytes in the
first `min(max_control_bytes_to_decode, control_bytes.len() - 3)`
positions (saturating, hence zero when the slice holds three or fewer),
invokes `sink.on_quad` once per decoded quad at position
`nums_already_decoded + 4·j`, advances the value-byte offset by
`LENGTH_PER_QUAD` of each control byte, and returns that quad count times
4 together with the total bytes read. -/
theorem c7_neon_decode_kernel (cbs bytes : List Nat) (maxC already : Nat)
    (h : cumulative_encoded_len (cbs.take (min maxC (cbs.length - 3))) + 12 ≤ bytes.length) :
    neon_decode_quads cbs bytes maxC already =
      some ((List.range (min maxC (cbs.length - 3))).map (fun j =>
          (vqtbl1q_u8 ((bytes.drop (cumulative_encoded_len (cbs.take j))).take 16)
            (decode_shuffle (cbs.getD j 0)), already + 4 * j)),
        4 * min maxC (cbs.length - 3),
        cumulative_encoded_len (cbs.take (min maxC (cbs.length - 3)))) := by
  simp only [neon_decode_quads]
  rw [neon_decode_go_eq (cbs.take (min maxC (cbs.length - 3))) bytes already h]
  dsimp only
  have hlen : (cbs.take (min maxC (cbs.length - 3))).length = min maxC (cbs.length - 3) := by
    simp only [List.length_take]
    omega
  refine congrArg some ?_
  rw [hlen]
  refine Prod.mk.injEq .. ▸ ⟨?_, rfl⟩
  refine List.map_congr_left (fun j hj => ?_)
  have hj' : j < min maxC (cbs.length - 3) := List.mem_range.mp hj
  have hgd : (cbs.take (min maxC (cbs.length - 3))).getD j 0 = cbs.getD j 0 := by
    simp only [List.getD_eq_getElem?_getD, List.getElem?_take, if_pos hj']
  have htk : (cbs.take (min maxC (cbs.length - 3))).take j = cbs.take j := by
    rw [List.take_take, Nat.min_eq_left (Nat.le_of_lt hj')]
  rw [hgd, htk]

/-- C7 witness: five control bytes, a request for ten, a value region
with the 12-byte margin. -/
theorem c7_neon_decode_kernel_witness :
    cumulative_encoded_len (([144, 0, 0, 0, 0] : List Nat).take
        (min 10 (([144, 0, 0, 0, 0] : List Nat).length - 3))) + 12 ≤
      ([0, 1, 0, 1, 0, 0, 1, 0, 0, 0, 0, 0, 0, 0, 0, 0, 0, 0, 0, 0, 0, 0, 0] :
        List Nat).length ∧
    neon_decode_quads [144, 0, 0, 0, 0]
        [0, 1, 0, 1, 0, 0, 1, 0, 0, 0, 0, 0, 0, 0, 0, 0, 0, 0, 0, 0, 0, 0, 0] 10 100 =
      some ((List.range (min 10 (([144, 0, 0, 0, 0] : List Nat).length - 3))).map (fun j =>
          (vqtbl1q_u8 ((([0, 1, 0, 1, 0, 0, 1, 0, 0, 0, 0, 0, 0, 0, 0, 0, 0, 0, 0, 0, 0, 0, 0] :
              List Nat).drop
              (cumulative_encoded_len (([144, 0, 0, 0, 0] : List Nat).take j))).take 16)
            (decode_shuffle (([144, 0, 0, 0, 0] : List Nat).getD j 0)), 100 + 4 * j)),
        4 * min 10 (([144, 0, 0, 0, 0] : List Nat).length - 3),
        cumulative_encoded_len (([144, 0, 0, 0, 0] : List Nat).take
          (min 10 (([144, 0, 0, 0, 0] : List Nat).length - 3)))) :=
  ⟨by decide,
   c7_neon_decode_kernel [144, 0, 0, 0, 0]
     [0, 1, 0, 1, 0, 0, 1, 0, 0, 0, 0, 0, 0, 0, 0, 0, 0, 0, 0, 0, 0, 0, 0] 10 100
     (by decide)⟩

/-- C8.  Safety of the `-3` margin: whenever the value bytes cover at
least the full region described by all of `control_bytes`, every
unconditional 16-byte read performed for a control byte within the first
`control_bytes.len() - 3` positions is in bounds, so
`NeonDecoder::decode_quads` never panics. -/
theorem c8_neon_decode_margin_safe (cbs bytes : List Nat) (maxC already : Nat)
    (h : cumulative_encoded_len cbs ≤ bytes.length) :
    (neon_decode_quads cbs bytes maxC already).isSome := by
  simp only [neon_decode_quads]
  rcases Nat.eq_zero_or_pos (min maxC (cbs.length - 3)) with h0 | h0
  · rw [h0]
    simp [neon_decode_go]
  · have hk3 : min maxC (cbs.length - 3) ≤ cbs.length - 3 := Nat.min_le_right _ _
    have hsplit : cumulative_encoded_len cbs =
        cumulative_encoded_len (cbs.take (min maxC (cbs.length - 3))) +
        cumulative_encoded_len (cbs.drop (min maxC (cbs.length - 3))) := by
      simp only [cumulative_encoded_len]
      rw [← List.sum_append, ← List.map_append, List.take_append_drop]
    have hdropge := cumulative_encoded_len_ge (cbs.drop (min maxC (cbs.length - 3)))
    have hdlen : (cbs.drop (min maxC (cbs.length - 3))).length =
        cbs.length - min maxC (cbs.length - 3) := List.length_drop _ _
    rw [neon_decode_go_eq (cbs.take (min maxC (cbs.length - 3))) bytes already (by omega)]
    simp

/-- C8 witness: four one-byte-per-number control bytes with exactly their
16 value bytes present. -/
theorem c8_neon_decode_margin_safe_witness :
    cumulative_encoded_len ([0, 0, 0, 0] : List Nat) ≤
      ([0, 0, 0, 0, 0, 0, 0, 0, 0, 0, 0, 0, 0, 0, 0, 0] : List Nat).length ∧
    (neon_decode_quads [0, 0, 0, 0] [0, 0, 0, 0, 0, 0, 0, 0, 0, 0, 0, 0, 0, 0, 0, 0]
        99 0).isSome :=
  ⟨by decide,
   c8_neon_decode_margin_safe [0, 0, 0, 0] [0, 0, 0, 0, 0, 0, 0, 0, 0, 0, 0, 0, 0, 0, 0, 0]
     99 0 (by decide)⟩

/-- C1 witness: a five-element sequence exercising all byte-length
classes and the partial trailing quad. -/
theorem c1_round_trip_witness :
    (∀ v ∈ ([5, 300, 70000, 2147483648, 7] : List Nat), v < 4294967296) ∧
    (∃ encoded count, encode_scalar [5, 300, 70000, 2147483648, 7] = some (encoded, count) ∧
      (decode_scalar encoded ([5, 300, 70000, 2147483648, 7] : List Nat).length).map
        Prod.fst = some [5, 300, 70000, 2147483648, 7]) :=
  ⟨by decide, c1_round_trip [5, 300, 70000, 2147483648, 7] (by decide)⟩

end StreamVByte
